import Mathlib

/-!
# Verification of the word-column-mapper core

A shallow embedding of the core indexing and fuzzy-matching engine of the
word-column-mapper repository (`word_column_mapper/core/normalizer.py`,
`index.py`, `fuzzy_matcher.py`, `engine.py`), together with proofs about the
embedded operations.

Strings are Lean `String`s; character-level processing works on `List Char`.
Python `float` arithmetic is modelled with `ℚ` (the formulas proved here are
about the algebraic shape of the computations, not about rounding).
Wall-clock timestamps (`time.time()`), execution-time accumulators and the
constant-zero cache counters are omitted from the state, as no property here
depends on them.  The third-party `rapidfuzz` ratio functions
(`fuzz.partial_ratio`, `fuzz.token_sort_ratio`, `fuzz.token_set_ratio`) and
the suggestion extractor (`process.extract`) are external collaborators; the
theorems below are universally quantified over their behaviour.
-/

namespace WordColumnMapper

/-! ## Text normalisation (`core/normalizer.py`, `TextNormalizer`) -/

/-- Python `str.lower`, modelled character-wise.  The table covers the
characters that occur in this development: ASCII letters are case-folded and
every other character (in particular the non-ASCII symbols used below, which
have no lowercase mapping in Unicode) is left unchanged. -/
def pyLowerChar (c : Char) : Char :=
  if 'A' ≤ c ∧ c ≤ 'Z' then Char.ofNat (c.toNat + 32) else c

/-- Unicode NFKD compatibility decomposition (`unicodedata.normalize('NFKD', ·)`),
modelled character-wise over the characters that occur in this development:
ASCII characters are NFKD-stable, and U+2122 TRADE MARK SIGN decomposes to the
two uppercase letters `TM` (its compatibility decomposition per UnicodeData). -/
def nfkdChar (c : Char) : List Char :=
  if c = '™' then ['T', 'M'] else [c]

/-- Python regex `\s` on an `str` pattern, restricted to the ASCII whitespace
characters used in this development. -/
def isPySpace (c : Char) : Bool :=
  c = ' ' || c = '\t' || c = '\n' || c = '\r' || c.toNat = 11 || c.toNat = 12

/-- One pass of `re.sub(r'[-_]|\s+', '_', ·)`: each single hyphen or
underscore, and each maximal run of whitespace, is replaced by one underscore.
The flag records whether we are inside a whitespace run (whose first character
already emitted the underscore). -/
def subDelimsAux : Bool → List Char → List Char
  | _, [] => []
  | inRun, c :: rest =>
    if c = '-' ∨ c = '_' then '_' :: subDelimsAux false rest
    else if isPySpace c then
      (if inRun then subDelimsAux true rest else '_' :: subDelimsAux true rest)
    else c :: subDelimsAux false rest

def subDelims (l : List Char) : List Char := subDelimsAux false l

/-- `re.sub(r'_+', '_', ·)`: collapse each run of underscores to a single
underscore (implemented by dropping an underscore that is immediately followed
by another one, which leaves exactly one underscore per run). -/
def collapseU : List Char → List Char
  | a :: b :: rest =>
    if a = '_' ∧ b = '_' then collapseU (b :: rest) else a :: collapseU (b :: rest)
  | l => l

/-- Python `str.strip('_')`: remove all leading and trailing underscores. -/
def stripU (l : List Char) : List Char :=
  (l.dropWhile (· = '_')).rdropWhile (· = '_')

/-- `TextNormalizer.normalize` on character lists: empty input returns empty;
otherwise lower-case, NFKD-decompose, replace delimiter runs by underscores,
collapse repeated underscores and strip outer underscores. -/
def normalizeL (l : List Char) : List Char :=
  if l = [] then []
  else stripU (collapseU (subDelims ((l.map pyLowerChar).flatMap nfkdChar)))

/-- `TextNormalizer.normalize` on `String`s. -/
def normalizeS (s : String) : String := ⟨normalizeL s.data⟩

/-- Python `str.strip()` (no arguments): remove leading and trailing
whitespace. -/
def pyStripL (l : List Char) : List Char :=
  (l.dropWhile isPySpace).rdropWhile isPySpace

def pyStripS (s : String) : String := ⟨pyStripL s.data⟩

/-- The per-character facts that make a character inert for `normalize`:
lower-casing and NFKD leave it alone and it is not a delimiter to be
rewritten (an underscore is inert in this sense). -/
def goodChar (c : Char) : Bool :=
  pyLowerChar c == c && nfkdChar c == [c] && c != '-' && !(isPySpace c)

/-- Two adjacent characters are not both underscores. -/
def NotDoubleU (a b : Char) : Prop := ¬(a = '_' ∧ b = '_')

/-! ## Levenshtein distance (`rapidfuzz.distance.Levenshtein.distance`)

The uniform-cost edit distance, computed by the standard row dynamic
programme (structural recursion, so that concrete instances evaluate). -/

/-- Continue one DP row: given the source character `a`, the remaining target
characters, the tail of the previous row aligned with them, the value of the
previous row diagonally up-left, and the value just computed to the left. -/
def levRowGo (a : Char) : List Char → List Nat → Nat → Nat → List Nat
  | [], _, _, _ => []
  | b :: t', pt, diag, left =>
    let up := pt.headD 0
    let e := min (diag + (if a = b then 0 else 1)) (min (up + 1) (left + 1))
    e :: levRowGo a t' pt.tail up e

/-- Compute the next DP row from the previous one. -/
def levRow (a : Char) (t : List Char) (prev : List Nat) : List Nat :=
  let first := prev.headD 0 + 1
  first :: levRowGo a t prev.tail (prev.headD 0) first

/-- Levenshtein edit distance between two character lists. -/
def lev (s t : List Char) : Nat :=
  (s.foldl (fun row a => levRow a t row) (List.range (t.length + 1))).getLastD 0

/-! ## Insertion-ordered dictionaries

Python `dict`s preserve insertion order; they are modelled as association
lists in which assigning to an existing key replaces its value in place and
assigning to a fresh key appends at the end. -/

/-- `d[k] = v`. -/
def dictInsert (k : String) (v : β) : List (String × β) → List (String × β)
  | [] => [(k, v)]
  | (k', v') :: rest =>
    if k' = k then (k, v) :: rest else (k', v') :: dictInsert k v rest

/-- `d.get(k)` / `d[k]` guarded by `k in d`. -/
def dictGet? (k : String) : List (String × β) → Option β
  | [] => none
  | (k', v) :: rest => if k' = k then some v else dictGet? k rest

/-- `del d[k]` (for a dictionary, which holds each key at most once). -/
def dictErase (k : String) : List (String × β) → List (String × β)
  | [] => []
  | (k', v) :: rest => if k' = k then rest else (k', v) :: dictErase k rest

/-! ## ForwardIndex (`core/index.py`) -/

/-- State of `ForwardIndex`: the word → columns dictionary, the
normalized-form → original-word alias dictionary, and the two statistics
counters (the `last_updated` wall-clock timestamp is omitted). -/
structure ForwardIndex where
  index : List (String × List String)
  normalizedIndex : List (String × String)
  totalWords : Nat
  totalMappings : Nat
  deriving DecidableEq, Repr

def ForwardIndex.empty : ForwardIndex := ⟨[], [], 0, 0⟩

/-- `ForwardIndex.add_mapping`: no-op on empty word or empty column list;
otherwise store a copy of the columns under the literal word, repoint the
normalized alias, set `total_words` to the dictionary size and bump the
cumulative `total_mappings` counter by the number of columns. -/
def ForwardIndex.addMapping (fi : ForwardIndex) (word : String)
    (columns : List String) : ForwardIndex :=
  if word = "" ∨ columns = [] then fi
  else
    let idx := dictInsert word columns fi.index
    { index := idx
      normalizedIndex := dictInsert (normalizeS word) word fi.normalizedIndex
      totalWords := idx.length
      totalMappings := fi.totalMappings + columns.length }

/-- `ForwardIndex.get_columns`: exact-key lookup first, then lookup through
the normalized alias table.  (The inner `none` branch is unreachable from
states built by the operations; Python would raise there.) -/
def ForwardIndex.getColumns (fi : ForwardIndex) (word : String) :
    Option (List String) :=
  match dictGet? word fi.index with
  | some cols => some cols
  | none =>
    match dictGet? (normalizeS word) fi.normalizedIndex with
    | some orig =>
      match dictGet? orig fi.index with
      | some cols => some cols
      | none => none
    | none => none

/-- `ForwardIndex.get_all_words`. -/
def ForwardIndex.getAllWords (fi : ForwardIndex) : List String :=
  fi.index.map Prod.fst

/-- `ForwardIndex.remove_mapping`: delete the exact key if present (also
dropping the alias entry under the word's normalized form) and report whether
anything was removed.  `total_mappings` is not touched. -/
def ForwardIndex.removeMapping (fi : ForwardIndex) (word : String) :
    ForwardIndex × Bool :=
  match dictGet? word fi.index with
  | some _ =>
    let idx := dictErase word fi.index
    let n := normalizeS word
    let nIdx :=
      if (dictGet? n fi.normalizedIndex).isSome then dictErase n fi.normalizedIndex
      else fi.normalizedIndex
    (⟨idx, nIdx, idx.length, fi.totalMappings⟩, true)
  | none => (fi, false)

/-- `ForwardIndex.clear`. -/
def ForwardIndex.clear (_fi : ForwardIndex) : ForwardIndex := ForwardIndex.empty

/-! ## ReverseIndex (`core/index.py`) -/

/-- State of `ReverseIndex`: the column → words dictionary (a
`defaultdict(list)`) and its statistics counters (timestamp omitted). -/
structure ReverseIndex where
  rindex : List (String × List String)
  totalColumns : Nat
  rtotalMappings : Nat
  deriving DecidableEq, Repr

def ReverseIndex.empty : ReverseIndex := ⟨[], 0, 0⟩

/-- One iteration of the loop in `ReverseIndex.add_mapping`: accessing the
`defaultdict` entry creates it empty if missing, then the word is appended
only if not already present. -/
def revAddStep (word : String) (acc : List (String × List String))
    (column : String) : List (String × List String) :=
  if word ∈ (dictGet? column acc).getD [] then acc
  else dictInsert column ((dictGet? column acc).getD [] ++ [word]) acc

/-- `ReverseIndex.add_mapping`. -/
def ReverseIndex.addMapping (ri : ReverseIndex) (word : String)
    (columns : List String) : ReverseIndex :=
  if word = "" ∨ columns = [] then ri
  else
    let idx := columns.foldl (revAddStep word) ri.rindex
    { rindex := idx
      totalColumns := idx.length
      rtotalMappings := (idx.map (fun p => p.2.length)).sum }

/-- `ReverseIndex.get_words`. -/
def ReverseIndex.getWords (ri : ReverseIndex) (column : String) :
    Option (List String) :=
  dictGet? column ri.rindex

/-- One iteration of the loop in `ReverseIndex.remove_mapping`: remove the
word from the column's list if present, deleting the column entry once the
list is empty. -/
def revRemoveStep (word : String) (acc : List (String × List String))
    (column : String) : List (String × List String) :=
  if word ∈ (dictGet? column acc).getD [] then
    if ((dictGet? column acc).getD []).erase word = [] then dictErase column acc
    else dictInsert column (((dictGet? column acc).getD []).erase word) acc
  else acc

/-- `ReverseIndex.remove_mapping`. -/
def ReverseIndex.removeMapping (ri : ReverseIndex) (word : String)
    (columns : List String) : ReverseIndex :=
  let idx := columns.foldl (revRemoveStep word) ri.rindex
  { rindex := idx
    totalColumns := idx.length
    rtotalMappings := (idx.map (fun p => p.2.length)).sum }

/-- `ReverseIndex.clear`. -/
def ReverseIndex.clear (_ri : ReverseIndex) : ReverseIndex := ReverseIndex.empty

/-! ## IndexManager (`core/index.py`) -/

/-- State of `IndexManager`: both indexes plus the re-entrancy flag. -/
structure IndexManager where
  forward : ForwardIndex
  reverse : ReverseIndex
  lock : Bool
  deriving DecidableEq, Repr

def IndexManager.empty : IndexManager := ⟨ForwardIndex.empty, ReverseIndex.empty, false⟩

/-- `IndexManager.add_mapping`: silently dropped when the re-entrancy flag is
set; otherwise adds to both indexes (the flag is set for the duration of the
call and restored in the `finally` block, so it reads `false` afterwards). -/
def IndexManager.addMapping (m : IndexManager) (word : String)
    (columns : List String) : IndexManager :=
  if m.lock then m
  else
    { forward := m.forward.addMapping word columns
      reverse := m.reverse.addMapping word columns
      lock := false }

/-- `IndexManager.remove_mapping`: `False` when the flag is set or when the
word's columns cannot be read (Python truthiness: `None` or an empty list);
otherwise removes from both indexes and returns `True`. -/
def IndexManager.removeMapping (m : IndexManager) (word : String) :
    IndexManager × Bool :=
  if m.lock then (m, false)
  else
    match m.forward.getColumns word with
    | none => (m, false)
    | some [] => (m, false)
    | some columns =>
      ({ forward := (m.forward.removeMapping word).1
         reverse := m.reverse.removeMapping word columns
         lock := false }, true)

/-- `IndexManager.update_mapping`: literally remove-then-add. -/
def IndexManager.updateMapping (m : IndexManager) (word : String)
    (columns : List String) : IndexManager :=
  ((m.removeMapping word).1).addMapping word columns

/-- `IndexManager.clear` (not guarded by the flag). -/
def IndexManager.clear (m : IndexManager) : IndexManager :=
  { forward := m.forward.clear, reverse := m.reverse.clear, lock := m.lock }

/-- The mutation surface of `IndexManager`. -/
inductive MOp where
  | add (word : String) (columns : List String)
  | remove (word : String)
  | update (word : String) (columns : List String)
  | clear
  deriving DecidableEq, Repr

def applyMOp (m : IndexManager) : MOp → IndexManager
  | .add w cols => m.addMapping w cols
  | .remove w => (m.removeMapping w).1
  | .update w cols => m.updateMapping w cols
  | .clear => m.clear

/-- The manager state after a sequence of mutations, starting from the
freshly constructed manager. -/
def runMOps (ops : List MOp) : IndexManager :=
  ops.foldl applyMOp IndexManager.empty

/-- Forward → reverse consistency: every `(word, column)` pair recorded in
the forward index has `word` in the reverse index's list for `column`. -/
def Direction1 (m : IndexManager) : Prop :=
  ∀ p ∈ m.forward.index, ∀ c ∈ p.2, p.1 ∈ ((m.reverse.getWords c).getD [])

/-- Reverse → forward consistency: every `(column, word)` pair recorded in
the reverse index has `column` in the forward index's list for `word`. -/
def Direction2 (m : IndexManager) : Prop :=
  ∀ p ∈ m.reverse.rindex, ∀ w ∈ p.2, p.1 ∈ ((dictGet? w m.forward.index).getD [])

instance (m : IndexManager) : Decidable (Direction1 m) := by
  unfold Direction1; infer_instance

instance (m : IndexManager) : Decidable (Direction2 m) := by
  unfold Direction2; infer_instance

/-- The well-formedness bundle maintained by every completed `IndexManager`
mutation: the re-entrancy flag is clear, both dictionaries have distinct
keys, every reverse word list is duplicate-free, and every `(word, column)`
pair of the forward index is present in the reverse index. -/
def MgrWF (m : IndexManager) : Prop :=
  m.lock = false ∧
  (m.forward.index.map Prod.fst).Nodup ∧
  (m.reverse.rindex.map Prod.fst).Nodup ∧
  (∀ p ∈ m.reverse.rindex, p.2.Nodup) ∧
  Direction1 m

/-- The mutation surface of a bare `ForwardIndex` (everything except
`clear`), for stating how the cumulative mapping counter evolves over the
index's lifetime. -/
inductive FOp where
  | add (word : String) (columns : List String)
  | remove (word : String)
  deriving DecidableEq, Repr

def applyFOp (fi : ForwardIndex) : FOp → ForwardIndex
  | .add w cols => fi.addMapping w cols
  | .remove w => (fi.removeMapping w).1

/-! ## FuzzyMatcher (`core/fuzzy_matcher.py`) -/

/-- `FuzzyMatcher.get_edit_operations`: a coarse length-based classifier. -/
def getEditOperations (query target : String) : String :=
  if query = target then "No changes"
  else
    let distance := lev query.data target.data
    if query.length < target.length then
      "Insert " ++ toString (target.length - query.length) ++ " character(s)"
    else if target.length < query.length then
      "Delete " ++ toString (query.length - target.length) ++ " character(s)"
    else
      "Substitute " ++ toString distance ++ " character(s)"

/-- The three `rapidfuzz.fuzz` scorers used by `_calculate_fuzzy_match`
(`partial_ratio`, `token_sort_ratio`, `token_set_ratio`, each on the 0–100
scale).  They are external library collaborators; every theorem about
`calcFuzzyMatch` is quantified over an arbitrary choice of them. -/
structure RatioFns where
  partialScore : String → String → ℚ
  tokenSortScore : String → String → ℚ
  tokenSetScore : String → String → ℚ

/-- The Levenshtein-derived ratio `1 - distance / max_len` (0 when both
strings are empty) from `_calculate_fuzzy_match`. -/
def levenshteinRatio (query candidate : String) : ℚ :=
  let distance := lev query.data candidate.data
  let maxLen := max query.length candidate.length
  if maxLen > 0 then 1 - (distance : ℚ) / maxLen else 0

/-- Python `max(·, key=lambda x: x[0])` over a non-empty list, given as head
and tail: the first element with the maximal first component wins. -/
def pyMaxByFst (x : ℚ × String × Nat) : List (ℚ × String × Nat) → ℚ × String × Nat
  | [] => x
  | y :: rest => pyMaxByFst (if y.1 > x.1 then y else x) rest

/-- `FuzzyMatcher._calculate_fuzzy_match`: pick the best of the four strategy
ratios, then — after that selection — apply the substring override: if one
string contains the other, boost the ratio by 0.1 capped at 1.0, force the
type to `"fuzzy_substring"` and replace the distance by the length
difference. -/
def calcFuzzyMatch (R : RatioFns) (query candidate : String) : ℚ × String × Nat :=
  let distance := lev query.data candidate.data
  let levRatio := levenshteinRatio query candidate
  let partRatio := R.partialScore query candidate / 100
  let tsortRatio := R.tokenSortScore query candidate / 100
  let tsetRatio := R.tokenSetScore query candidate / 100
  let best := pyMaxByFst (levRatio, "fuzzy_levenshtein", distance)
    [(partRatio, "fuzzy_partial", distance),
     (tsortRatio, "fuzzy_token_sort", distance),
     (tsetRatio, "fuzzy_token_set", distance)]
  let qInC : Bool := decide (query.data <:+: candidate.data)
  let cInQ : Bool := decide (candidate.data <:+: query.data)
  if qInC || cInQ then
    (min 1 (best.1 + 1/10), "fuzzy_substring",
      if qInC then candidate.length - query.length else query.length - candidate.length)
  else best

/-! ## SearchEngine (`core/engine.py`) -/

/-- A single entry of a search response (`models/response.py`,
`SearchResult`). -/
structure SearchResult where
  word : String
  confidence : ℚ
  match_type : String
  columns : List String
  edit_distance : Nat
  changes : Option String
  deriving DecidableEq, Repr

/-- A search response (`models/response.py`, `SearchResponse`); the
wall-clock `execution_time_ms` field is omitted. -/
structure SearchResponse where
  query : String
  exact_match : Bool
  total_results : Nat
  results : List SearchResult
  total_unique_columns : List String
  cache_hit : Bool
  suggestions : Option (List String)
  deriving DecidableEq, Repr

/-- The four query counters of the engine's `_stats` record (the wall-clock
accumulator and the constant-zero cache counters are omitted). -/
structure EngineStats where
  total_queries : Nat
  exact_matches : Nat
  fuzzy_matches : Nat
  no_matches : Nat
  deriving DecidableEq, Repr

/-- State of `SearchEngine`. -/
structure SearchEngine where
  fuzzy_threshold : ℚ
  mgr : IndexManager
  stats : EngineStats
  deriving DecidableEq, Repr

/-- A freshly constructed engine (default `fuzzy_threshold=0.6`). -/
def SearchEngine.init (ft : ℚ := 3/5) : SearchEngine :=
  ⟨ft, IndexManager.empty, ⟨0, 0, 0, 0⟩⟩

/-- The inflated distance `abs(len(nq) - len(nw)) + Levenshtein(nq, nw)` that
`_fuzzy_search_with_edit_distance` reports as `edit_distance` and filters
against `max_edit_distance`. -/
def inflatedDistance (nq nw : List Char) : Nat :=
  ((nq.length : Int) - (nw.length : Int)).natAbs + lev nq nw

/-- The ranking used by `results.sort(key=lambda x: (x.edit_distance,
-x.confidence))`: ascending edit distance, ties broken by descending
confidence (the sort is stable). -/
def resultRank (a b : SearchResult) : Prop :=
  a.edit_distance < b.edit_distance ∨
    (a.edit_distance = b.edit_distance ∧ b.confidence ≤ a.confidence)

instance : DecidableRel resultRank := fun a b => by
  unfold resultRank; infer_instance

/-- The loop body of `SearchEngine._fuzzy_search_with_edit_distance`: score
one indexed word against the (already trimmed) query.  The word survives when
its inflated distance is within `max_edit_distance` and its columns resolve to
a non-empty list; distance 0 yields an exact result, anything else a
`"fuzzy_levenshtein"` result with confidence `1 - d / max_len` over the
normalized lengths (0 when both normalized strings are empty). -/
def scoreWord (fi : ForwardIndex) (query : String) (nq : List Char)
    (maxEditDistance : Nat) (word : String) : Option SearchResult :=
  if inflatedDistance nq (normalizeL word.data) ≤ maxEditDistance then
    match fi.getColumns word with
    | none => none
    | some [] => none
    | some columns =>
      if inflatedDistance nq (normalizeL word.data) = 0 then
        some ⟨word, 1, "exact", columns,
          inflatedDistance nq (normalizeL word.data), none⟩
      else
        some ⟨word,
          (if max nq.length (normalizeL word.data).length > 0 then
            1 - (inflatedDistance nq (normalizeL word.data) : ℚ) /
              (max nq.length (normalizeL word.data).length)
          else 0),
          "fuzzy_levenshtein", columns, inflatedDistance nq (normalizeL word.data),
          some (getEditOperations query word)⟩
  else none

/-- `SearchEngine._fuzzy_search_with_edit_distance`: score every indexed word
by the inflated distance, keep the survivors, sort by ascending edit distance
then descending confidence, truncate to `max_results`.  (The function also
receives the fuzzy threshold, which it never uses.) -/
def fuzzySearchWithEditDistance (fi : ForwardIndex) (query : String)
    (maxResults maxEditDistance : Nat) : List SearchResult :=
  if fi.getAllWords = [] then []
  else
    ((fi.getAllWords.filterMap
        (scoreWord fi query (normalizeL query.data) maxEditDistance)).insertionSort
      resultRank).take maxResults

/-- Python `list(set(...))` built from successive `update` calls, modelled as
first-seen-order deduplication (CPython's set iteration order is
unspecified). -/
def setOfLists (ls : List (List String)) : List String :=
  ls.foldl (fun acc cs => acc ++ cs.filter (fun c => !(c ∈ acc : Bool))) []

/-- The empty response `_create_empty_response` builds for empty/whitespace
queries. -/
def emptyResponse (query : String) : SearchResponse :=
  ⟨query, false, 0, [], [], false, none⟩

/-- `SearchEngine.search`.  `suggestFn` models
`FuzzyMatcher.suggest_corrections` (a `rapidfuzz.process.extract` ranking,
external to this repository); it receives the trimmed query and the full
vocabulary.  Returns the response together with the updated engine. -/
def SearchEngine.search (eng : SearchEngine)
    (suggestFn : String → List String → List String) (query : String)
    (fuzzyThreshold : Option ℚ) (maxResults : Nat := 10)
    (includeSuggestions : Bool := true) (maxEditDistance : Nat := 5) :
    SearchResponse × SearchEngine :=
  if pyStripS query = "" then (emptyResponse query, eng)
  else
    let q := pyStripS query
    let _threshold : ℚ :=
      match fuzzyThreshold with
      | some t => if t = 0 then eng.fuzzy_threshold else t
      | none => eng.fuzzy_threshold
    let stats1 := { eng.stats with total_queries := eng.stats.total_queries + 1 }
    let allResults := fuzzySearchWithEditDistance eng.mgr.forward q maxResults maxEditDistance
    let hasExact := allResults.any (fun r => r.match_type == "exact")
    if allResults.isEmpty then
      let stats2 := { stats1 with no_matches := stats1.no_matches + 1 }
      let suggestions :=
        if includeSuggestions then some (suggestFn q eng.mgr.forward.getAllWords) else none
      (⟨q, false, 0, [], [], false, suggestions⟩, { eng with stats := stats2 })
    else
      let stats2 :=
        if hasExact then { stats1 with exact_matches := stats1.exact_matches + 1 }
        else { stats1 with fuzzy_matches := stats1.fuzzy_matches + 1 }
      let allColumns := setOfLists (allResults.map (fun r => r.columns))
      (⟨q, hasExact, allResults.length, allResults, allColumns, false, none⟩,
        { eng with stats := stats2 })

/-- `SearchEngine.clear`: clears the index manager and resets every counter. -/
def SearchEngine.clearEngine (eng : SearchEngine) : SearchEngine :=
  { fuzzy_threshold := eng.fuzzy_threshold, mgr := eng.mgr.clear, stats := ⟨0, 0, 0, 0⟩ }

/-- The result record of `SearchEngine.intersection_search` (the wall-clock
field is omitted; the `operation` field is the constant `"AND"`). -/
structure IntersectionResult where
  query_words : List String
  intersection_columns : List String
  total_common_columns : Nat
  deriving DecidableEq, Repr

/-- Python `set(columns)`, modelled as first-seen-order deduplication. -/
def setOfList (l : List String) : List String :=
  l.foldl (fun acc c => if c ∈ acc then acc else acc ++ [c]) []

/-- The per-word column sets `intersection_search` collects: one set for
each word whose columns resolve to a non-empty list (unresolvable words are
skipped, not treated as empty sets). -/
def wordColumnSets (fi : ForwardIndex) (words : List String) :
    List (List String) :=
  words.filterMap (fun w =>
    match fi.getColumns w with
    | none => none
    | some [] => none
    | some cols => some (setOfList cols))

/-- Pairwise intersection of the collected sets, starting from the first. -/
def intersectAll : List (List String) → List String
  | [] => []
  | first :: rest =>
    rest.foldl (fun acc cols => acc.filter (fun c => c ∈ cols)) first

/-- `SearchEngine.intersection_search`: requires at least two words;
intersects the collected per-word column sets; `none` when no set was
collected or when the intersection is empty. -/
def intersectionSearch (fi : ForwardIndex) (words : List String) :
    Option IntersectionResult :=
  if words.length < 2 then none
  else
    match wordColumnSets fi words with
    | [] => none
    | first :: rest =>
      if intersectAll (first :: rest) = [] then none
      else some ⟨words, intersectAll (first :: rest),
        (intersectAll (first :: rest)).length⟩

/-! ## Operation sequences over the engine -/

/-- The operations a collaborator can drive a `SearchEngine` with: queries,
index mutations (`load_mappings` is a sequence of adds), and `clear`. -/
inductive EOp where
  | search (q : String) (ft : Option ℚ) (maxResults : Nat)
      (includeSuggestions : Bool) (maxEditDistance : Nat)
  | index (op : MOp)
  | clear
  deriving Repr

def applyEOp (suggestFn : String → List String → List String)
    (eng : SearchEngine) : EOp → SearchEngine
  | .search q ft mr inc med => (eng.search suggestFn q ft mr inc med).2
  | .index op => { eng with mgr := applyMOp eng.mgr op }
  | .clear => eng.clearEngine

/-- The engine state after a sequence of operations, starting from a fresh
engine. -/
def runEOps (suggestFn : String → List String → List String)
    (ops : List EOp) : SearchEngine :=
  ops.foldl (applyEOp suggestFn) SearchEngine.init

/-! ## Concrete fixtures used to instantiate theorems -/

/-- A trivial suggestion function (suggestions never influence results or
statistics). -/
def noSuggest : String → List String → List String := fun _ _ => []

/-- The spec's sample vocabulary for the set-algebra example. -/
def sampleForward : ForwardIndex :=
  (ForwardIndex.empty.addMapping "date" ["c1", "c2", "c3", "c4"]).addMapping
    "start_date" ["c2", "c4"]

/-- An engine holding the sample vocabulary. -/
def sampleEngine : SearchEngine :=
  { SearchEngine.init with
    mgr := runMOps [.add "date" ["c1", "c2", "c3", "c4"], .add "start_date" ["c2", "c4"]] }

/-- An engine holding a word whose normalized form is empty. -/
def dashEngine : SearchEngine :=
  { SearchEngine.init with mgr := runMOps [.add "--" ["c1"]] }

/-- A placeholder result record for binder-free head extraction. -/
def defaultResult : SearchResult := ⟨"", 0, "", [], 0, none⟩

/-- A concrete choice of external ratio scorers. -/
def zeroRatios : RatioFns := ⟨fun _ _ => 0, fun _ _ => 0, fun _ _ => 0⟩

/-! # Theorems

## Dictionary lemmas -/

theorem mem_dictInsert {β : Type} {k : String} {v : β} {p : String × β}
    {l : List (String × β)} (h : p ∈ dictInsert k v l) : p = (k, v) ∨ p ∈ l := by
  induction l with
  | nil => simpa [dictInsert] using h
  | cons q rest ih =>
    simp only [dictInsert] at h
    split at h
    · rcases List.mem_cons.mp h with h | h
      · exact Or.inl h
      · exact Or.inr (List.mem_cons_of_mem _ h)
    · rcases List.mem_cons.mp h with h | h
      · exact Or.inr (by simp [h])
      · rcases ih h with h | h
        · exact Or.inl h
        · exact Or.inr (List.mem_cons_of_mem _ h)

theorem dictGet?_eq_none_iff {β : Type} {k : String} {l : List (String × β)} :
    dictGet? k l = none ↔ ∀ p ∈ l, p.1 ≠ k := by
  induction l with
  | nil => simp [dictGet?]
  | cons q rest ih =>
    simp only [dictGet?]
    split
    · simp_all
    · rename_i hne
      simp only [List.mem_cons, ih]
      constructor
      · rintro h p (rfl | hp)
        · exact hne
        · exact h p hp
      · intro h p hp
        exact h p (Or.inr hp)

theorem dictGet?_dictInsert_self {β : Type} {k : String} {v : β}
    {l : List (String × β)} : dictGet? k (dictInsert k v l) = some v := by
  induction l with
  | nil => simp [dictInsert, dictGet?]
  | cons q rest ih =>
    simp only [dictInsert]
    split
    · simp [dictGet?]
    · rename_i hne
      simp [dictGet?, hne, ih]

theorem dictGet?_dictInsert_ne {β : Type} {k k' : String} {v : β}
    {l : List (String × β)} (h : k' ≠ k) :
    dictGet? k' (dictInsert k v l) = dictGet? k' l := by
  induction l with
  | nil => simp [dictInsert, dictGet?, Ne.symm h]
  | cons q rest ih =>
    simp only [dictInsert]
    split
    · rename_i hq
      simp [dictGet?, Ne.symm h, hq]
    · simp only [dictGet?]
      split <;> simp_all

theorem mem_dictErase {β : Type} {k : String} {p : String × β}
    {l : List (String × β)} (h : p ∈ dictErase k l) : p ∈ l := by
  induction l with
  | nil => simp [dictErase] at h
  | cons q rest ih =>
    simp only [dictErase] at h
    split at h
    · exact List.mem_cons_of_mem _ h
    · rcases List.mem_cons.mp h with h | h
      · simp [h]
      · exact List.mem_cons_of_mem _ (ih h)

theorem keys_dictInsert {β : Type} {k : String} {v : β} {l : List (String × β)} :
    (dictInsert k v l).map Prod.fst =
      if k ∈ l.map Prod.fst then l.map Prod.fst else l.map Prod.fst ++ [k] := by
  induction l with
  | nil => simp [dictInsert]
  | cons q rest ih =>
    simp only [dictInsert]
    split
    · rename_i hq
      simp [hq]
    · rename_i hq
      have hqk : ¬k = q.1 := fun h => hq h.symm
      simp only [List.map_cons, ih]
      by_cases hk : k ∈ rest.map Prod.fst <;> simp [hk, hqk]

theorem nodup_keys_dictInsert {β : Type} {k : String} {v : β}
    {l : List (String × β)} (h : (l.map Prod.fst).Nodup) :
    ((dictInsert k v l).map Prod.fst).Nodup := by
  rw [keys_dictInsert]
  split
  · exact h
  · rename_i hk
    exact List.Nodup.append h (List.nodup_singleton k) (by simpa using hk)

theorem keys_dictErase_sublist {β : Type} {k : String} {l : List (String × β)} :
    ((dictErase k l).map Prod.fst).Sublist (l.map Prod.fst) := by
  induction l with
  | nil => simp [dictErase]
  | cons q rest ih =>
    simp only [dictErase]
    split
    · exact (List.sublist_cons_self _ _)
    · simpa using List.Sublist.cons₂ q.1 ih

theorem nodup_keys_dictErase {β : Type} {k : String} {l : List (String × β)}
    (h : (l.map Prod.fst).Nodup) : ((dictErase k l).map Prod.fst).Nodup :=
  h.sublist keys_dictErase_sublist

theorem mem_dictErase_key_ne {β : Type} {k : String} {p : String × β}
    {l : List (String × β)} (hnd : (l.map Prod.fst).Nodup)
    (h : p ∈ dictErase k l) : p.1 ≠ k := by
  induction l with
  | nil => simp [dictErase] at h
  | cons q rest ih =>
    simp only [List.map_cons, List.nodup_cons] at hnd
    simp only [dictErase] at h
    split at h
    · rename_i hq
      subst hq
      intro hk
      exact hnd.1 (hk ▸ List.mem_map_of_mem Prod.fst h)
    · rename_i hq
      rcases List.mem_cons.mp h with h | h
      · subst h; exact hq
      · exact ih hnd.2 h

theorem dictGet?_eq_some_mem {β : Type} {k : String} {v : β}
    {l : List (String × β)} (h : dictGet? k l = some v) : (k, v) ∈ l := by
  induction l with
  | nil => simp [dictGet?] at h
  | cons q rest ih =>
    simp only [dictGet?] at h
    split at h
    · rename_i hq
      cases h
      simp [← hq]
    · exact List.mem_cons_of_mem _ (ih h)

theorem not_mem_keys_dictGet? {β : Type} {k : String} {l : List (String × β)}
    (h : k ∉ l.map Prod.fst) : dictGet? k l = none := by
  rw [dictGet?_eq_none_iff]
  intro p hp hk
  exact h (hk ▸ List.mem_map_of_mem Prod.fst hp)

theorem dictGet?_dictErase_self {β : Type} {k : String} {l : List (String × β)}
    (hnd : (l.map Prod.fst).Nodup) : dictGet? k (dictErase k l) = none := by
  rw [dictGet?_eq_none_iff]
  intro p hp
  exact mem_dictErase_key_ne hnd hp

theorem dictGet?_dictErase_ne {β : Type} {k k' : String} {l : List (String × β)}
    (h : k' ≠ k) : dictGet? k' (dictErase k l) = dictGet? k' l := by
  induction l with
  | nil => simp [dictErase]
  | cons q rest ih =>
    simp only [dictErase]
    split
    · rename_i hq
      simp [dictGet?, hq, Ne.symm h]
    · simp only [dictGet?]
      split <;> simp_all

/-! ## Reverse-index fold lemmas -/

/-- One `revAddStep` never removes a word from any column's list. -/
theorem mem_getD_revAddStep {x w c col : String}
    {acc : List (String × List String)}
    (h : x ∈ (dictGet? c acc).getD []) :
    x ∈ (dictGet? c (revAddStep w acc col)).getD [] := by
  unfold revAddStep
  by_cases hw : w ∈ (dictGet? col acc).getD []
  · rw [if_pos hw]; exact h
  · rw [if_neg hw]
    by_cases hc : c = col
    · subst hc
      rw [dictGet?_dictInsert_self]
      simpa using Or.inl h
    · rwa [dictGet?_dictInsert_ne hc]

/-- `revAddStep` puts the word into its own column's list. -/
theorem mem_getD_revAddStep_self {w c : String}
    {acc : List (String × List String)} :
    w ∈ (dictGet? c (revAddStep w acc c)).getD [] := by
  unfold revAddStep
  by_cases hw : w ∈ (dictGet? c acc).getD []
  · rw [if_pos hw]; exact hw
  · rw [if_neg hw, dictGet?_dictInsert_self]
    simp

/-- The `ReverseIndex.add_mapping` fold never removes a word. -/
theorem mem_getD_revAdd_fold {x w c : String} {columns : List String} :
    ∀ {acc : List (String × List String)},
      x ∈ (dictGet? c acc).getD [] →
      x ∈ (dictGet? c (columns.foldl (revAddStep w) acc)).getD [] := by
  induction columns with
  | nil => intro acc h; exact h
  | cons col rest ih =>
    intro acc h
    exact ih (mem_getD_revAddStep h)

/-- After the `ReverseIndex.add_mapping` fold, the word is in the list of
every column of the batch. -/
theorem mem_getD_revAdd_fold_self {w c : String} {columns : List String}
    (hc : c ∈ columns) :
    ∀ {acc : List (String × List String)},
      w ∈ (dictGet? c (columns.foldl (revAddStep w) acc)).getD [] := by
  induction columns with
  | nil => simp at hc
  | cons col rest ih =>
    intro acc
    rcases List.mem_cons.mp hc with rfl | hc'
    · by_cases hr : c ∈ rest
      · exact ih hr
      · simp only [List.foldl_cons]
        exact mem_getD_revAdd_fold mem_getD_revAddStep_self
    · exact ih hc'

/-- `revAddStep` preserves distinctness of the column keys. -/
theorem keys_nodup_revAddStep {w col : String}
    {acc : List (String × List String)} (hnd : (acc.map Prod.fst).Nodup) :
    (((revAddStep w acc col).map Prod.fst)).Nodup := by
  unfold revAddStep
  split
  · exact hnd
  · exact nodup_keys_dictInsert hnd

/-- `revRemoveStep` preserves distinctness of the column keys. -/
theorem keys_nodup_revRemoveStep {w col : String}
    {acc : List (String × List String)} (hnd : (acc.map Prod.fst).Nodup) :
    (((revRemoveStep w acc col).map Prod.fst)).Nodup := by
  unfold revRemoveStep
  split
  · split
    · exact nodup_keys_dictErase hnd
    · exact nodup_keys_dictInsert hnd
  · exact hnd

theorem getD_nodup {acc : List (String × List String)}
    (hl : ∀ p ∈ acc, p.2.Nodup) (c : String) :
    ((dictGet? c acc).getD []).Nodup := by
  cases hcol : dictGet? c acc with
  | some ws => exact hl _ (dictGet?_eq_some_mem hcol)
  | none => simp

/-- `revAddStep` keeps every column's word list duplicate-free. -/
theorem lists_nodup_revAddStep {w col : String}
    {acc : List (String × List String)} (hl : ∀ p ∈ acc, p.2.Nodup) :
    ∀ p ∈ revAddStep w acc col, p.2.Nodup := by
  unfold revAddStep
  split
  · exact hl
  · rename_i hw
    intro p hp
    rcases mem_dictInsert hp with rfl | hp'
    · exact List.Nodup.append (getD_nodup hl col) (List.nodup_singleton w)
        (by simpa using hw)
    · exact hl _ hp'

/-- `revRemoveStep` keeps every column's word list duplicate-free. -/
theorem lists_nodup_revRemoveStep {w col : String}
    {acc : List (String × List String)} (hl : ∀ p ∈ acc, p.2.Nodup) :
    ∀ p ∈ revRemoveStep w acc col, p.2.Nodup := by
  unfold revRemoveStep
  split
  · split
    · intro p hp
      exact hl _ (mem_dictErase hp)
    · intro p hp
      rcases mem_dictInsert hp with rfl | hp'
      · exact (getD_nodup hl col).erase w
      · exact hl _ hp'
  · exact hl

/-- One `revRemoveStep` never adds a word to any column's list (for
duplicate-free keys). -/
theorem mem_getD_revRemoveStep {x w c col : String}
    {acc : List (String × List String)} (hnd : (acc.map Prod.fst).Nodup)
    (h : x ∈ (dictGet? c (revRemoveStep w acc col)).getD []) :
    x ∈ (dictGet? c acc).getD [] := by
  unfold revRemoveStep at h
  split at h
  · split at h
    · by_cases hc : c = col
      · subst hc
        rw [dictGet?_dictErase_self hnd] at h
        simp at h
      · rwa [dictGet?_dictErase_ne hc] at h
    · by_cases hc : c = col
      · subst hc
        rw [dictGet?_dictInsert_self] at h
        exact List.mem_of_mem_erase h
      · rwa [dictGet?_dictInsert_ne hc] at h
  · exact h

/-- One `revRemoveStep` keeps every word other than the removed one. -/
theorem mem_getD_revRemoveStep_ne {x w c col : String}
    {acc : List (String × List String)} (hx : x ≠ w)
    (h : x ∈ (dictGet? c acc).getD []) :
    x ∈ (dictGet? c (revRemoveStep w acc col)).getD [] := by
  unfold revRemoveStep
  split
  · rename_i hw
    by_cases hc : c = col
    · subst hc
      have hxerase : x ∈ ((dictGet? c acc).getD []).erase w :=
        (List.mem_erase_of_ne hx).mpr h
      split
      · rename_i hempty
        rw [hempty] at hxerase
        simp at hxerase
      · rw [dictGet?_dictInsert_self]
        exact hxerase
    · split
      · rwa [dictGet?_dictErase_ne hc]
      · rwa [dictGet?_dictInsert_ne hc]
  · exact h

/-- `revRemoveStep` removes the word from its own column's list (for
duplicate-free keys and lists). -/
theorem not_mem_getD_revRemoveStep_self {w c : String}
    {acc : List (String × List String)} (hnd : (acc.map Prod.fst).Nodup)
    (hl : ∀ p ∈ acc, p.2.Nodup) :
    w ∉ (dictGet? c (revRemoveStep w acc c)).getD [] := by
  unfold revRemoveStep
  split
  · rename_i hw
    split
    · rw [dictGet?_dictErase_self hnd]
      simp
    · rw [dictGet?_dictInsert_self]
      intro hmem
      exact (((getD_nodup hl c).mem_erase_iff).mp hmem).1 rfl
  · rename_i hw
    exact hw

/-- Key distinctness is preserved along the `add_mapping` fold. -/
theorem keys_nodup_revAdd_fold {w : String} {columns : List String} :
    ∀ {acc : List (String × List String)}, (acc.map Prod.fst).Nodup →
      ((columns.foldl (revAddStep w) acc).map Prod.fst).Nodup := by
  induction columns with
  | nil => intro acc hnd; exact hnd
  | cons col rest ih => intro acc hnd; exact ih (keys_nodup_revAddStep hnd)

/-- List distinctness is preserved along the `add_mapping` fold. -/
theorem lists_nodup_revAdd_fold {w : String} {columns : List String} :
    ∀ {acc : List (String × List String)}, (∀ p ∈ acc, p.2.Nodup) →
      ∀ p ∈ columns.foldl (revAddStep w) acc, p.2.Nodup := by
  induction columns with
  | nil => intro acc hl; exact hl
  | cons col rest ih => intro acc hl; exact ih (lists_nodup_revAddStep hl)

/-- Key distinctness is preserved along the `remove_mapping` fold. -/
theorem keys_nodup_revRemove_fold {w : String} {columns : List String} :
    ∀ {acc : List (String × List String)}, (acc.map Prod.fst).Nodup →
      ((columns.foldl (revRemoveStep w) acc).map Prod.fst).Nodup := by
  induction columns with
  | nil => intro acc hnd; exact hnd
  | cons col rest ih => intro acc hnd; exact ih (keys_nodup_revRemoveStep hnd)

/-- List distinctness is preserved along the `remove_mapping` fold. -/
theorem lists_nodup_revRemove_fold {w : String} {columns : List String} :
    ∀ {acc : List (String × List String)}, (∀ p ∈ acc, p.2.Nodup) →
      ∀ p ∈ columns.foldl (revRemoveStep w) acc, p.2.Nodup := by
  induction columns with
  | nil => intro acc hl; exact hl
  | cons col rest ih => intro acc hl; exact ih (lists_nodup_revRemoveStep hl)

/-- The `remove_mapping` fold never adds a word to any column's list. -/
theorem mem_getD_revRemove_fold {x w c : String} {columns : List String} :
    ∀ {acc : List (String × List String)}, (acc.map Prod.fst).Nodup →
      x ∈ (dictGet? c (columns.foldl (revRemoveStep w) acc)).getD [] →
      x ∈ (dictGet? c acc).getD [] := by
  induction columns with
  | nil => intro acc _ h; exact h
  | cons col rest ih =>
    intro acc hnd h
    exact mem_getD_revRemoveStep hnd (ih (keys_nodup_revRemoveStep hnd) h)

/-- The `remove_mapping` fold keeps every word other than the removed one. -/
theorem mem_getD_revRemove_fold_ne {x w c : String} {columns : List String}
    (hx : x ≠ w) :
    ∀ {acc : List (String × List String)}, x ∈ (dictGet? c acc).getD [] →
      x ∈ (dictGet? c (columns.foldl (revRemoveStep w) acc)).getD [] := by
  induction columns with
  | nil => intro acc h; exact h
  | cons col rest ih =>
    intro acc h
    exact ih (mem_getD_revRemoveStep_ne hx h)

/-- After the `remove_mapping` fold, the removed word is gone from the list
of every column of the batch. -/
theorem not_mem_getD_revRemove_fold {w c : String} {columns : List String}
    (hc : c ∈ columns) :
    ∀ {acc : List (String × List String)}, (acc.map Prod.fst).Nodup →
      (∀ p ∈ acc, p.2.Nodup) →
      w ∉ (dictGet? c (columns.foldl (revRemoveStep w) acc)).getD [] := by
  induction columns with
  | nil => simp at hc
  | cons col rest ih =>
    intro acc hnd hl
    rcases List.mem_cons.mp hc with rfl | hc'
    · by_cases hr : c ∈ rest
      · exact ih hr (keys_nodup_revRemoveStep hnd) (lists_nodup_revRemoveStep hl)
      · simp only [List.foldl_cons]
        intro hmem
        exact not_mem_getD_revRemoveStep_self hnd hl
          (mem_getD_revRemove_fold (keys_nodup_revRemoveStep hnd) hmem)
    · exact ih hc' (keys_nodup_revRemoveStep hnd) (lists_nodup_revRemoveStep hl)

/-! ## IndexManager invariants -/

theorem mgrWF_empty : MgrWF IndexManager.empty := by
  refine ⟨rfl, ?_, ?_, ?_, ?_⟩ <;>
    simp [IndexManager.empty, ForwardIndex.empty, ReverseIndex.empty, Direction1]

theorem mgrWF_addMapping {m : IndexManager} (h : MgrWF m) (w : String)
    (cols : List String) : MgrWF (m.addMapping w cols) := by
  obtain ⟨hlock, hfnd, hrnd, hrl, hd1⟩ := h
  unfold IndexManager.addMapping
  rw [hlock]
  simp only [Bool.false_eq_true, if_false]
  unfold ForwardIndex.addMapping ReverseIndex.addMapping
  by_cases hguard : w = "" ∨ cols = []
  · rw [if_pos hguard, if_pos hguard]
    exact ⟨rfl, hfnd, hrnd, hrl, hd1⟩
  · rw [if_neg hguard, if_neg hguard]
    refine ⟨rfl, nodup_keys_dictInsert hfnd, keys_nodup_revAdd_fold hrnd,
      lists_nodup_revAdd_fold hrl, ?_⟩
    intro p hp c hc
    rcases mem_dictInsert hp with rfl | hp'
    · exact mem_getD_revAdd_fold_self hc
    · exact mem_getD_revAdd_fold (hd1 p hp' c hc)

theorem mgrWF_removeMapping {m : IndexManager} (h : MgrWF m) (w : String) :
    MgrWF (m.removeMapping w).1 := by
  obtain ⟨hlock, hfnd, hrnd, hrl, hd1⟩ := h
  unfold IndexManager.removeMapping
  rw [hlock]
  simp only [Bool.false_eq_true, if_false]
  cases hcols : m.forward.getColumns w with
  | none => exact ⟨hlock, hfnd, hrnd, hrl, hd1⟩
  | some cols =>
    cases cols with
    | nil => exact ⟨hlock, hfnd, hrnd, hrl, hd1⟩
    | cons c0 cols' =>
      simp only
      unfold ForwardIndex.removeMapping ReverseIndex.removeMapping
      cases hw : dictGet? w m.forward.index with
      | some oldCols =>
        refine ⟨rfl, nodup_keys_dictErase hfnd, keys_nodup_revRemove_fold hrnd,
          lists_nodup_revRemove_fold hrl, ?_⟩
        intro p hp c hc
        have hp' : p ∈ m.forward.index := mem_dictErase hp
        have hpne : p.1 ≠ w := mem_dictErase_key_ne hfnd hp
        exact mem_getD_revRemove_fold_ne hpne (hd1 p hp' c hc)
      | none =>
        refine ⟨rfl, hfnd, keys_nodup_revRemove_fold hrnd,
          lists_nodup_revRemove_fold hrl, ?_⟩
        intro p hp c hc
        have hpne : p.1 ≠ w := (dictGet?_eq_none_iff.mp hw) p hp
        exact mem_getD_revRemove_fold_ne hpne (hd1 p hp c hc)

theorem mgrWF_clear {m : IndexManager} (h : MgrWF m) : MgrWF m.clear := by
  obtain ⟨hlock, _, _, _, _⟩ := h
  unfold IndexManager.clear ForwardIndex.clear ReverseIndex.clear
  refine ⟨hlock, ?_, ?_, ?_, ?_⟩ <;>
    simp [ForwardIndex.empty, ReverseIndex.empty, Direction1]

theorem mgrWF_applyMOp {m : IndexManager} (h : MgrWF m) (op : MOp) :
    MgrWF (applyMOp m op) := by
  cases op with
  | add w cols => exact mgrWF_addMapping h w cols
  | remove w => exact mgrWF_removeMapping h w
  | update w cols =>
    exact mgrWF_addMapping (mgrWF_removeMapping h w) w cols
  | clear => exact mgrWF_clear h

theorem mgrWF_foldl {ops : List MOp} :
    ∀ {m : IndexManager}, MgrWF m → MgrWF (ops.foldl applyMOp m) := by
  induction ops with
  | nil => intro m h; exact h
  | cons op rest ih =>
    intro m h
    exact ih (mgrWF_applyMOp h op)

/-- Every manager state reachable by a sequence of completed mutations is
well-formed. -/
theorem mgrWF_runMOps (ops : List MOp) : MgrWF (runMOps ops) :=
  mgrWF_foldl mgrWF_empty

/-! ## Search-result characterisation -/

/-- Everything `scoreWord` guarantees about a surviving result. -/
theorem scoreWord_eq_some {fi : ForwardIndex} {query : String} {nq : List Char}
    {med : Nat} {word : String} {r : SearchResult}
    (h : scoreWord fi query nq med word = some r) :
    r.word = word ∧
    r.edit_distance = inflatedDistance nq (normalizeL word.data) ∧
    r.edit_distance ≤ med ∧
    (r.edit_distance = 0 →
      r.confidence = 1 ∧ r.match_type = "exact" ∧ r.changes = none) ∧
    (r.edit_distance ≠ 0 →
      r.confidence = (if max nq.length (normalizeL word.data).length > 0 then
          1 - (r.edit_distance : ℚ) / (max nq.length (normalizeL word.data).length)
        else 0) ∧
      r.match_type = "fuzzy_levenshtein" ∧
      r.changes = some (getEditOperations query word)) := by
  unfold scoreWord at h
  split at h
  · rename_i hle
    split at h
    · cases h
    · cases h
    · split at h
      · rename_i hzero
        cases h
        simp_all
      · rename_i hzero
        cases h
        simp_all
  · cases h

/-- Every returned result of the exhaustive fuzzy scan comes from
`scoreWord` on some indexed word. -/
theorem mem_fuzzySearch {fi : ForwardIndex} {query : String} {mr med : Nat}
    {r : SearchResult} (hr : r ∈ fuzzySearchWithEditDistance fi query mr med) :
    ∃ word, scoreWord fi query (normalizeL query.data) med word = some r := by
  unfold fuzzySearchWithEditDistance at hr
  split at hr
  · simp at hr
  · have h1 := List.take_subset _ _ hr
    have h2 := ((List.perm_insertionSort resultRank _).mem_iff).mp h1
    obtain ⟨w, _, hsw⟩ := List.mem_filterMap.mp h2
    exact ⟨w, hsw⟩

/-- The fuzzy scan never returns more than `max_results` entries. -/
theorem length_fuzzySearch_le (fi : ForwardIndex) (query : String)
    (mr med : Nat) : (fuzzySearchWithEditDistance fi query mr med).length ≤ mr := by
  unfold fuzzySearchWithEditDistance
  split
  · simp
  · exact List.length_take_le _ _

/-- For a non-blank query, the `results` field of the response is exactly the
output of the exhaustive fuzzy scan on the trimmed query (in the no-match
branch both are the empty list). -/
theorem search_results_eq (eng : SearchEngine)
    (suggestFn : String → List String → List String) (query : String)
    (ft : Option ℚ) (mr : Nat) (inc : Bool) (med : Nat)
    (hq : pyStripS query ≠ "") :
    (eng.search suggestFn query ft mr inc med).1.results =
      fuzzySearchWithEditDistance eng.mgr.forward (pyStripS query) mr med := by
  unfold SearchEngine.search
  rw [if_neg hq]
  dsimp only
  split
  · rename_i hempty
    rw [List.isEmpty_iff] at hempty
    simp [hempty]
  · rfl

/-! ## Claim C1 -/

/-- C1: for every non-empty, non-whitespace query, every result returned by
`SearchEngine.search` has `edit_distance` equal to the inflated distance
`|len(normalized_query) - len(normalized_word)| + Levenshtein(normalized_query,
normalized_word)` of its word; no returned result has `edit_distance` greater
than `max_edit_distance`; and the number of returned results never exceeds
`max_results`. -/
theorem claimC1_theorem (eng : SearchEngine)
    (suggestFn : String → List String → List String) (query : String)
    (ft : Option ℚ) (mr : Nat) (inc : Bool) (med : Nat)
    (hq : pyStripS query ≠ "") :
    (∀ r ∈ (eng.search suggestFn query ft mr inc med).1.results,
      r.edit_distance =
        inflatedDistance (normalizeL (pyStripS query).data)
          (normalizeL r.word.data) ∧
      r.edit_distance ≤ med) ∧
    (eng.search suggestFn query ft mr inc med).1.results.length ≤ mr := by
  rw [search_results_eq eng suggestFn query ft mr inc med hq]
  constructor
  · intro r hr
    obtain ⟨w, hsw⟩ := mem_fuzzySearch hr
    obtain ⟨hword, hed, hle, -, -⟩ := scoreWord_eq_some hsw
    rw [hword]
    exact ⟨hed, hle⟩
  · exact length_fuzzySearch_le _ _ _ _

/-- Witness for C1 at a concrete engine and query. -/
theorem claimC1_witness :
    pyStripS " dat " ≠ "" ∧
    (sampleEngine.search noSuggest " dat " none 10 true 5).1.results.length ≤ 10 :=
  ⟨by decide,
    (claimC1_theorem sampleEngine noSuggest " dat " none 10 true 5 (by decide)).2⟩

/-! ## Claim C3 -/

/-- C3: in `SearchEngine.search`, every surviving word with inflated
`edit_distance == 0` is reported with confidence 1.0, match type `"exact"`
and no changes; every surviving word with positive `edit_distance` is
reported with confidence `1 - inflated_distance / max_len` over the lengths
of the normalized query and normalized word (0 when both are empty), match
type `"fuzzy_levenshtein"`, and changes
`FuzzyMatcher.get_edit_operations(query, word)` on the original (trimmed)
query and stored word. -/
theorem claimC3_theorem (eng : SearchEngine)
    (suggestFn : String → List String → List String) (query : String)
    (ft : Option ℚ) (mr : Nat) (inc : Bool) (med : Nat)
    (hq : pyStripS query ≠ "") :
    ∀ r ∈ (eng.search suggestFn query ft mr inc med).1.results,
      (r.edit_distance = 0 →
        r.confidence = 1 ∧ r.match_type = "exact" ∧ r.changes = none) ∧
      (r.edit_distance ≠ 0 →
        r.confidence =
          (if max (normalizeL (pyStripS query).data).length
              (normalizeL r.word.data).length > 0 then
            1 - (r.edit_distance : ℚ) /
              (max (normalizeL (pyStripS query).data).length
                (normalizeL r.word.data).length)
          else 0) ∧
        r.match_type = "fuzzy_levenshtein" ∧
        r.changes = some (getEditOperations (pyStripS query) r.word)) := by
  rw [search_results_eq eng suggestFn query ft mr inc med hq]
  intro r hr
  obtain ⟨w, hsw⟩ := mem_fuzzySearch hr
  obtain ⟨hword, -, -, hz, hnz⟩ := scoreWord_eq_some hsw
  rw [hword]
  exact ⟨hz, hnz⟩

/-- Witness for C3: the exact branch on the sample engine. -/
theorem claimC3_witness :
    pyStripS "date" ≠ "" ∧
    ((sampleEngine.search noSuggest "date" none 10 true 5).1.results.headD
        defaultResult).confidence = 1 ∧
    ((sampleEngine.search noSuggest "date" none 10 true 5).1.results.headD
        defaultResult).match_type = "exact" := by
  have h := claimC3_theorem sampleEngine noSuggest "date" none 10 true 5 (by decide)
  have hmem : (sampleEngine.search noSuggest "date" none 10 true 5).1.results.headD
      defaultResult ∈ (sampleEngine.search noSuggest "date" none 10 true 5).1.results := by
    decide
  have hz := (h _ hmem).1 (by decide)
  exact ⟨by decide, hz.1, hz.2.1⟩

/-! ## Claim C9 -/

/-- C9 as stated is false: search-result confidences can be negative.  With
the stored word `"--"` (normalized form empty) and query `"ab"`, the inflated
distance is 4 while the longer normalized length is 2, so the reported
confidence is `1 - 4/2 = -1 < 0` — even with the default
`max_edit_distance = 5`. -/
theorem claimC9_counterexample :
    ((dashEngine.search noSuggest "ab" none 10 true 5).1.results.headD
        defaultResult).confidence < 0 := by
  have hlen : (dashEngine.search noSuggest "ab" none 10 true 5).1.results.length = 1 := by
    decide
  obtain ⟨a, ha⟩ := List.length_eq_one.mp hlen
  have hmem : a ∈ (dashEngine.search noSuggest "ab" none 10 true 5).1.results := by
    rw [ha]; exact List.mem_singleton_self a
  have hres := hmem
  rw [search_results_eq dashEngine noSuggest "ab" none 10 true 5 (by decide)] at hres
  obtain ⟨w, hsw⟩ := mem_fuzzySearch hres
  have hw : w = "--" := by
    have hwords : (dashEngine.search noSuggest "ab" none 10 true 5).1.results.map
        SearchResult.word = ["--"] := by decide
    rw [ha] at hwords
    obtain ⟨hword, -, -, -, -⟩ := scoreWord_eq_some hsw
    simp only [List.map_cons, List.map_nil, List.cons.injEq, and_true] at hwords
    rw [← hword]
    exact hwords
  have hed : a.edit_distance = 4 := by
    have heds : (dashEngine.search noSuggest "ab" none 10 true 5).1.results.map
        SearchResult.edit_distance = [4] := by decide
    rw [ha] at heds
    simpa using heds
  obtain ⟨-, -, -, -, hnz⟩ := scoreWord_eq_some hsw
  obtain ⟨hc, -, -⟩ := hnz (by rw [hed]; norm_num)
  rw [ha]
  simp only [List.headD_cons]
  rw [hw, hed] at hc
  have h1 : (normalizeL (pyStripS "ab").data).length = 2 := by decide
  have h2 : (normalizeL ("--" : String).data).length = 0 := by decide
  rw [h1, h2] at hc
  rw [hc]
  norm_num

/-- C9 (amended): every confidence reported by `SearchEngine.search` is at
most 1, a confidence of exactly 1 occurs only with match type `"exact"`, and
the confidence is non-negative whenever the result's inflated distance does
not exceed the longer of the two normalized lengths (the `[0, 1]` range of
the original claim fails otherwise, and the FuzzyMatcher ratio paths are
external-library computations outside this embedding). -/
theorem claimC9_theorem (eng : SearchEngine)
    (suggestFn : String → List String → List String) (query : String)
    (ft : Option ℚ) (mr : Nat) (inc : Bool) (med : Nat)
    (hq : pyStripS query ≠ "") :
    ∀ r ∈ (eng.search suggestFn query ft mr inc med).1.results,
      r.confidence ≤ 1 ∧
      (r.confidence = 1 → r.match_type = "exact") ∧
      (r.edit_distance ≤ max (normalizeL (pyStripS query).data).length
          (normalizeL r.word.data).length → 0 ≤ r.confidence) := by
  rw [search_results_eq eng suggestFn query ft mr inc med hq]
  intro r hr
  obtain ⟨w, hsw⟩ := mem_fuzzySearch hr
  obtain ⟨hword, -, -, hz, hnz⟩ := scoreWord_eq_some hsw
  rw [hword]
  by_cases h0 : r.edit_distance = 0
  · obtain ⟨hc, ht, -⟩ := hz h0
    refine ⟨le_of_eq hc, fun _ => ht, fun _ => ?_⟩
    rw [hc]
    norm_num
  · obtain ⟨hc, ht, -⟩ := hnz h0
    have hdpos : (0 : ℚ) < (r.edit_distance : ℚ) := by
      exact_mod_cast Nat.pos_of_ne_zero h0
    refine ⟨?_, ?_, ?_⟩
    · rw [hc]
      split
      · rename_i hm
        have hnn : 0 ≤ (r.edit_distance : ℚ) /
            ((max (normalizeL (pyStripS query).data).length
              (normalizeL w.data).length : Nat) : ℚ) := by positivity
        linarith
      · norm_num
    · rw [hc]
      split
      · rename_i hm
        intro h1
        have hmpos : (0 : ℚ) < ((max (normalizeL (pyStripS query).data).length
            (normalizeL w.data).length : Nat) : ℚ) := by exact_mod_cast hm
        have hdiv : (0 : ℚ) < (r.edit_distance : ℚ) /
            ((max (normalizeL (pyStripS query).data).length
              (normalizeL w.data).length : Nat) : ℚ) := div_pos hdpos hmpos
        linarith
      · intro h1
        norm_num at h1
    · intro hble
      rw [hc]
      split
      · rename_i hm
        have hmpos : (0 : ℚ) < ((max (normalizeL (pyStripS query).data).length
            (normalizeL w.data).length : Nat) : ℚ) := by exact_mod_cast hm
        have hcast : (r.edit_distance : ℚ) ≤
            ((max (normalizeL (pyStripS query).data).length
              (normalizeL w.data).length : Nat) : ℚ) := by exact_mod_cast hble
        have hdiv : (r.edit_distance : ℚ) /
            ((max (normalizeL (pyStripS query).data).length
              (normalizeL w.data).length : Nat) : ℚ) ≤ 1 :=
          (div_le_one hmpos).mpr hcast
        linarith
      · exact le_refl 0

/-- C2 as stated is false: the reverse → forward direction is broken by
re-adding an existing word with different columns.  After
`add_mapping("a", ["c1"])` then `add_mapping("a", ["c2"])`, ReverseIndex
still records `("c1", "a")` but ForwardIndex's list for `"a"` is `["c2"]`. -/
theorem claimC2_counterexample :
    ¬ (Direction1 (runMOps [.add "a" ["c1"], .add "a" ["c2"]]) ∧
       Direction2 (runMOps [.add "a" ["c1"], .add "a" ["c2"]])) := by
  decide

/-- C2 (amended): after every sequence of completed `IndexManager` mutations,
the forward → reverse direction holds — every `(word, column)` pair recorded
in ForwardIndex has the word in ReverseIndex's list for that column.  The
reverse → forward direction of the original claim fails once `add_mapping`
overwrites an existing word's columns, leaving stale reverse entries. -/
theorem claimC2_theorem (ops : List MOp) : Direction1 (runMOps ops) :=
  (mgrWF_runMOps ops).2.2.2.2

/-- C7 as stated is false: after `add_mapping("a", ["c1"])` and
`add_mapping("a", ["c2"])`, `remove_mapping("a")` returns `True` yet the word
`"a"` is still recorded in the reverse index (under the stale column
`"c1"`). -/
theorem claimC7_counterexample :
    ((runMOps [.add "a" ["c1"], .add "a" ["c2"]]).removeMapping "a").2 = true ∧
    "a" ∈ ((((runMOps [.add "a" ["c1"], .add "a" ["c2"]]).removeMapping
      "a").1).reverse.getWords "c1").getD [] := by
  decide

/-- C7 (amended): `IndexManager.remove_mapping(word)` returns `False` with
both indexes unchanged whenever the word's columns cannot be read from
ForwardIndex; whenever it returns `True`, the word is gone from ForwardIndex's
exact-key dictionary and from the reverse lists of every column that was read
for it (stale reverse entries under other columns, and forward entries reached
only through the normalized alias, may survive). -/
theorem claimC7_theorem (ops : List MOp) (w : String) :
    ((runMOps ops).forward.getColumns w = none ∨
      (runMOps ops).forward.getColumns w = some [] →
      (runMOps ops).removeMapping w = (runMOps ops, false)) ∧
    (∀ cols, (runMOps ops).forward.getColumns w = some cols → cols ≠ [] →
      ((runMOps ops).removeMapping w).2 = true ∧
      dictGet? w ((runMOps ops).removeMapping w).1.forward.index = none ∧
      ∀ c ∈ cols,
        w ∉ ((((runMOps ops).removeMapping w).1.reverse.getWords c).getD [])) := by
  obtain ⟨hlock, hfnd, hrnd, hrl, -⟩ := mgrWF_runMOps ops
  constructor
  · intro hcols
    unfold IndexManager.removeMapping
    rw [hlock]
    simp only [Bool.false_eq_true, if_false]
    rcases hcols with hcols | hcols <;> rw [hcols]
  · intro cols hcols hne
    unfold IndexManager.removeMapping
    rw [hlock]
    simp only [Bool.false_eq_true, if_false]
    rw [hcols]
    cases cols with
    | nil => exact absurd rfl hne
    | cons c0 cols' =>
      refine ⟨rfl, ?_, ?_⟩
      · unfold ForwardIndex.removeMapping
        cases hw : dictGet? w (runMOps ops).forward.index with
        | some oldCols =>
          simpa using dictGet?_dictErase_self hfnd
        | none => simpa using hw
      · intro c hc
        unfold ReverseIndex.removeMapping ReverseIndex.getWords
        exact not_mem_getD_revRemove_fold hc hrnd hrl

/-- Witness for C7 (amended) at a concrete manager. -/
theorem claimC7_witness :
    dictGet? "a" (((runMOps [.add "a" ["c1"]]).removeMapping
      "a").1.forward.index) = none ∧
    "a" ∉ (((((runMOps [.add "a" ["c1"]]).removeMapping
      "a").1).reverse.getWords "c1").getD []) := by
  have h := (claimC7_theorem [.add "a" ["c1"]] "a").2 ["c1"] (by decide) (by decide)
  exact ⟨h.2.1, h.2.2 "c1" (by decide)⟩

/-- Witness for C9 (amended). -/
theorem claimC9_witness :
    pyStripS "date" ≠ "" ∧
    ((sampleEngine.search noSuggest "date" none 10 true 5).1.results.headD
        defaultResult).confidence ≤ 1 := by
  have h := claimC9_theorem sampleEngine noSuggest "date" none 10 true 5 (by decide)
  have hmem : (sampleEngine.search noSuggest "date" none 10 true 5).1.results.headD
      defaultResult ∈ (sampleEngine.search noSuggest "date" none 10 true 5).1.results := by
    decide
  exact ⟨by decide, (h _ hmem).1⟩

/-! ## Claim C6 -/

/-- One forward-index operation never decreases the cumulative counter. -/
theorem totalMappings_le_applyFOp (fi : ForwardIndex) (op : FOp) :
    fi.totalMappings ≤ (applyFOp fi op).totalMappings := by
  cases op with
  | add w cols =>
    simp only [applyFOp]
    unfold ForwardIndex.addMapping
    split
    · exact le_refl _
    · exact Nat.le_add_right _ _
  | remove w =>
    simp only [applyFOp]
    unfold ForwardIndex.removeMapping
    cases hw : dictGet? w fi.index <;> simp

/-- C6: ForwardIndex's cumulative `total_mappings` counter is monotonically
non-decreasing across any sequence of `add_mapping`/`remove_mapping` calls
(i.e. everything but `clear`); every successful `add_mapping(word, columns)`
increases it by exactly `len(columns)`, and `remove_mapping` never changes
it. -/
theorem claimC6_theorem :
    (∀ (fi : ForwardIndex) (ops : List FOp),
      fi.totalMappings ≤ (ops.foldl applyFOp fi).totalMappings) ∧
    (∀ (fi : ForwardIndex) (w : String) (cols : List String),
      w ≠ "" → cols ≠ [] →
      (fi.addMapping w cols).totalMappings = fi.totalMappings + cols.length) ∧
    (∀ (fi : ForwardIndex) (w : String),
      ((fi.removeMapping w).1).totalMappings = fi.totalMappings) := by
  refine ⟨?_, ?_, ?_⟩
  · intro fi ops
    induction ops generalizing fi with
    | nil => exact le_refl _
    | cons op rest ih =>
      exact le_trans (totalMappings_le_applyFOp fi op) (ih (applyFOp fi op))
  · intro fi w cols hw hcols
    unfold ForwardIndex.addMapping
    rw [if_neg (by simp [hw, hcols])]
  · intro fi w
    unfold ForwardIndex.removeMapping
    cases hw : dictGet? w fi.index <;> simp

/-- Witness for C6: a successful add bumps the counter by the column count,
and a subsequent remove leaves it untouched. -/
theorem claimC6_witness :
    (ForwardIndex.empty.addMapping "a" ["c1", "c2"]).totalMappings =
      ForwardIndex.empty.totalMappings + 2 ∧
    (((ForwardIndex.empty.addMapping "a" ["c1", "c2"]).removeMapping
        "a").1).totalMappings =
      (ForwardIndex.empty.addMapping "a" ["c1", "c2"]).totalMappings := by
  constructor
  · have h := claimC6_theorem.2.1 ForwardIndex.empty "a" ["c1", "c2"]
      (by decide) (by decide)
    simpa using h
  · exact claimC6_theorem.2.2 (ForwardIndex.empty.addMapping "a" ["c1", "c2"]) "a"

/-! ## Claim C8 -/

/-- Membership in the pairwise intersection fold. -/
theorem mem_foldl_filter {c : String} (rest : List (List String)) :
    ∀ first : List String,
      (c ∈ rest.foldl (fun acc cols => acc.filter (fun x => x ∈ cols)) first ↔
        c ∈ first ∧ ∀ s ∈ rest, c ∈ s) := by
  induction rest with
  | nil => intro first; simp
  | cons s rest' ih =>
    intro first
    simp only [List.foldl_cons]
    rw [ih]
    simp only [List.mem_filter, decide_eq_true_eq, List.mem_cons, and_assoc]
    constructor
    · rintro ⟨h1, h2, h3⟩
      exact ⟨h1, fun t ht => by rcases ht with rfl | ht; exact h2; exact h3 t ht⟩
    · rintro ⟨h1, h2⟩
      exact ⟨h1, h2 s (Or.inl rfl), fun t ht => h2 t (Or.inr ht)⟩

/-- C8: `intersection_search` returns `none` for fewer than two words, and
`none` exactly when, in addition, either no word resolved to a column set or
the pairwise intersection of the collected per-word column sets is empty;
otherwise it returns exactly that intersection (a column is in the result
iff it lies in every collected set). -/
theorem claimC8_theorem (fi : ForwardIndex) (words : List String) :
    (words.length < 2 → intersectionSearch fi words = none) ∧
    (intersectionSearch fi words = none ↔
      words.length < 2 ∨ wordColumnSets fi words = [] ∨
        intersectAll (wordColumnSets fi words) = []) ∧
    (∀ r, intersectionSearch fi words = some r →
      r.query_words = words ∧
      r.intersection_columns = intersectAll (wordColumnSets fi words) ∧
      r.total_common_columns = r.intersection_columns.length ∧
      (∀ c, c ∈ r.intersection_columns ↔
        (wordColumnSets fi words ≠ [] ∧
          ∀ s ∈ wordColumnSets fi words, c ∈ s))) := by
  unfold intersectionSearch
  by_cases hlen : words.length < 2
  · rw [if_pos hlen]
    refine ⟨fun _ => rfl, by simp [hlen], fun r h => by cases h⟩
  · rw [if_neg hlen]
    cases hsets : wordColumnSets fi words with
    | nil =>
      refine ⟨fun h => absurd h hlen, by simp, fun r h => by cases h⟩
    | cons first rest =>
      dsimp only
      by_cases he : intersectAll (first :: rest) = []
      · rw [if_pos he]
        refine ⟨fun h => absurd h hlen, by simp [hlen, he], fun r h => by cases h⟩
      · rw [if_neg he]
        refine ⟨fun h => absurd h hlen, by simp [hlen, he], fun r h => ?_⟩
        cases h
        refine ⟨rfl, rfl, rfl, fun c => ?_⟩
        unfold intersectAll
        rw [mem_foldl_filter]
        simp

/-- Witness for C8: the spec's set-algebra example and the short-input
guard. -/
theorem claimC8_witness :
    intersectionSearch sampleForward ["date", "start_date"] =
      some ⟨["date", "start_date"], ["c2", "c4"], 2⟩ ∧
    intersectionSearch sampleForward ["zzz"] = none := by
  refine ⟨by decide, ?_⟩
  exact (claimC8_theorem sampleForward ["zzz"]).1 (by decide)

/-! ## Claim C10 -/

/-- A blank (empty or whitespace-only) query leaves the engine — in
particular every statistics counter — untouched. -/
theorem searchStats_blank (eng : SearchEngine)
    (suggestFn : String → List String → List String) (query : String)
    (ft : Option ℚ) (mr : Nat) (inc : Bool) (med : Nat)
    (hq : pyStripS query = "") :
    (eng.search suggestFn query ft mr inc med).2 = eng := by
  unfold SearchEngine.search
  rw [if_pos hq]

/-- A non-blank query bumps `total_queries` and exactly one of the three
outcome counters. -/
theorem searchStats_incr (eng : SearchEngine)
    (suggestFn : String → List String → List String) (query : String)
    (ft : Option ℚ) (mr : Nat) (inc : Bool) (med : Nat)
    (hq : pyStripS query ≠ "") :
    ((eng.search suggestFn query ft mr inc med).2.stats.total_queries =
      eng.stats.total_queries + 1) ∧
    (((eng.search suggestFn query ft mr inc med).2.stats.exact_matches =
        eng.stats.exact_matches + 1 ∧
      (eng.search suggestFn query ft mr inc med).2.stats.fuzzy_matches =
        eng.stats.fuzzy_matches ∧
      (eng.search suggestFn query ft mr inc med).2.stats.no_matches =
        eng.stats.no_matches) ∨
    ((eng.search suggestFn query ft mr inc med).2.stats.exact_matches =
        eng.stats.exact_matches ∧
      (eng.search suggestFn query ft mr inc med).2.stats.fuzzy_matches =
        eng.stats.fuzzy_matches + 1 ∧
      (eng.search suggestFn query ft mr inc med).2.stats.no_matches =
        eng.stats.no_matches) ∨
    ((eng.search suggestFn query ft mr inc med).2.stats.exact_matches =
        eng.stats.exact_matches ∧
      (eng.search suggestFn query ft mr inc med).2.stats.fuzzy_matches =
        eng.stats.fuzzy_matches ∧
      (eng.search suggestFn query ft mr inc med).2.stats.no_matches =
        eng.stats.no_matches + 1)) := by
  unfold SearchEngine.search
  rw [if_neg hq]
  dsimp only
  split
  · exact ⟨rfl, Or.inr (Or.inr ⟨rfl, rfl, rfl⟩)⟩
  · split
    · exact ⟨rfl, Or.inl ⟨rfl, rfl, rfl⟩⟩
    · exact ⟨rfl, Or.inr (Or.inl ⟨rfl, rfl, rfl⟩)⟩

/-- One engine operation preserves the counter balance. -/
theorem statsOK_applyEOp (suggestFn : String → List String → List String)
    (eng : SearchEngine) (op : EOp)
    (h : eng.stats.exact_matches + eng.stats.fuzzy_matches +
      eng.stats.no_matches = eng.stats.total_queries) :
    (applyEOp suggestFn eng op).stats.exact_matches +
      (applyEOp suggestFn eng op).stats.fuzzy_matches +
      (applyEOp suggestFn eng op).stats.no_matches =
      (applyEOp suggestFn eng op).stats.total_queries := by
  cases op with
  | search q ft mr inc med =>
    simp only [applyEOp]
    by_cases hq : pyStripS q = ""
    · rw [searchStats_blank eng suggestFn q ft mr inc med hq]
      exact h
    · obtain ⟨ht, hcase⟩ := searchStats_incr eng suggestFn q ft mr inc med hq
      rcases hcase with ⟨h1, h2, h3⟩ | ⟨h1, h2, h3⟩ | ⟨h1, h2, h3⟩ <;>
        rw [h1, h2, h3, ht] <;> omega
  | index mop => exact h
  | clear => rfl

/-- C10: after any sequence of engine operations from a fresh engine the
outcome counters balance, `exact_matches + fuzzy_matches + no_matches =
total_queries`: a search on a blank query changes no counter, a search on a
non-blank query bumps `total_queries` and exactly one outcome counter, and
`clear()` resets all four counters to zero together. -/
theorem claimC10_theorem :
    (∀ (suggestFn : String → List String → List String) (ops : List EOp),
      (runEOps suggestFn ops).stats.exact_matches +
        (runEOps suggestFn ops).stats.fuzzy_matches +
        (runEOps suggestFn ops).stats.no_matches =
        (runEOps suggestFn ops).stats.total_queries) ∧
    (∀ (eng : SearchEngine) (suggestFn : String → List String → List String)
        (query : String) (ft : Option ℚ) (mr : Nat) (inc : Bool) (med : Nat),
      pyStripS query = "" →
      (eng.search suggestFn query ft mr inc med).2.stats = eng.stats) ∧
    (∀ (eng : SearchEngine) (suggestFn : String → List String → List String)
        (query : String) (ft : Option ℚ) (mr : Nat) (inc : Bool) (med : Nat),
      pyStripS query ≠ "" →
      ((eng.search suggestFn query ft mr inc med).2.stats.total_queries =
        eng.stats.total_queries + 1) ∧
      (((eng.search suggestFn query ft mr inc med).2.stats.exact_matches =
          eng.stats.exact_matches + 1 ∧
        (eng.search suggestFn query ft mr inc med).2.stats.fuzzy_matches =
          eng.stats.fuzzy_matches ∧
        (eng.search suggestFn query ft mr inc med).2.stats.no_matches =
          eng.stats.no_matches) ∨
      ((eng.search suggestFn query ft mr inc med).2.stats.exact_matches =
          eng.stats.exact_matches ∧
        (eng.search suggestFn query ft mr inc med).2.stats.fuzzy_matches =
          eng.stats.fuzzy_matches + 1 ∧
        (eng.search suggestFn query ft mr inc med).2.stats.no_matches =
          eng.stats.no_matches) ∨
      ((eng.search suggestFn query ft mr inc med).2.stats.exact_matches =
          eng.stats.exact_matches ∧
        (eng.search suggestFn query ft mr inc med).2.stats.fuzzy_matches =
          eng.stats.fuzzy_matches ∧
        (eng.search suggestFn query ft mr inc med).2.stats.no_matches =
          eng.stats.no_matches + 1))) ∧
    (∀ eng : SearchEngine, eng.clearEngine.stats = ⟨0, 0, 0, 0⟩) := by
  refine ⟨?_, ?_, ?_, ?_⟩
  · intro suggestFn ops
    unfold runEOps
    have hrun : ∀ (eng : SearchEngine),
        eng.stats.exact_matches + eng.stats.fuzzy_matches +
          eng.stats.no_matches = eng.stats.total_queries →
        (ops.foldl (applyEOp suggestFn) eng).stats.exact_matches +
          (ops.foldl (applyEOp suggestFn) eng).stats.fuzzy_matches +
          (ops.foldl (applyEOp suggestFn) eng).stats.no_matches =
          (ops.foldl (applyEOp suggestFn) eng).stats.total_queries := by
      induction ops with
      | nil => intro eng h; exact h
      | cons op rest ih =>
        intro eng h
        exact ih (applyEOp suggestFn eng op) (statsOK_applyEOp suggestFn eng op h)
    exact hrun SearchEngine.init rfl
  · intro eng suggestFn query ft mr inc med hq
    rw [searchStats_blank eng suggestFn query ft mr inc med hq]
  · intro eng suggestFn query ft mr inc med hq
    exact searchStats_incr eng suggestFn query ft mr inc med hq
  · intro eng
    rfl

/-- Witness for C10: concrete searches on the sample engine. -/
theorem claimC10_witness :
    (sampleEngine.search noSuggest "  " none 10 true 5).2.stats =
      sampleEngine.stats ∧
    (sampleEngine.search noSuggest "date" none 10 true 5).2.stats.total_queries =
      sampleEngine.stats.total_queries + 1 := by
  constructor
  · exact claimC10_theorem.2.1 sampleEngine noSuggest "  " none 10 true 5 (by decide)
  · exact (claimC10_theorem.2.2.1 sampleEngine noSuggest "date" none 10 true 5
      (by decide)).1

/-! ## Claim C5 -/

/-- The first component of Python's `max(·, key=lambda x: x[0])` is the
maximum of the first components. -/
theorem pyMaxByFst_fst (x : ℚ × String × Nat) (l : List (ℚ × String × Nat)) :
    (pyMaxByFst x l).1 = l.foldl (fun m y => max m y.1) x.1 := by
  induction l generalizing x with
  | nil => rfl
  | cons y rest ih =>
    simp only [pyMaxByFst, List.foldl_cons]
    rw [ih]
    congr 1
    split
    · rename_i hgt
      exact (max_eq_right hgt.le).symm
    · rename_i hgt
      exact (max_eq_left (not_lt.mp hgt)).symm

/-- C5: whenever one normalized string fully contains the other, the fuzzy
score of `_calculate_fuzzy_match` is the four-way maximum of the strategy
ratios boosted by 0.1 and capped at 1.0, the match type is forced to
`"fuzzy_substring"`, and the distance is replaced by the absolute length
difference — regardless of which strategy produced the winning ratio, since
the override runs after the four-way max selection. -/
theorem claimC5_theorem (R : RatioFns) (query candidate : String)
    (hsub : query.data <:+: candidate.data ∨ candidate.data <:+: query.data) :
    calcFuzzyMatch R query candidate =
      (min 1 (max (max (max (levenshteinRatio query candidate)
          (R.partialScore query candidate / 100))
          (R.tokenSortScore query candidate / 100))
          (R.tokenSetScore query candidate / 100) + 1 / 10),
       "fuzzy_substring",
       if query.data <:+: candidate.data then candidate.length - query.length
       else query.length - candidate.length) := by
  have hcond : (decide (query.data <:+: candidate.data) ||
      decide (candidate.data <:+: query.data)) = true := by
    rcases hsub with h | h <;> simp [h]
  unfold calcFuzzyMatch
  dsimp only
  rw [if_pos hcond, pyMaxByFst_fst]
  simp only [List.foldl_cons, List.foldl_nil, decide_eq_true_eq]

/-- Witness for C5: the query `"ab"` is contained in the candidate `"abc"`. -/
theorem claimC5_witness :
    calcFuzzyMatch zeroRatios "ab" "abc" =
      (min 1 (max (max (max (levenshteinRatio "ab" "abc")
          (zeroRatios.partialScore "ab" "abc" / 100))
          (zeroRatios.tokenSortScore "ab" "abc" / 100))
          (zeroRatios.tokenSetScore "ab" "abc" / 100) + 1 / 10),
       "fuzzy_substring",
       if ("ab" : String).data <:+: ("abc" : String).data then
         ("abc" : String).length - ("ab" : String).length
       else ("ab" : String).length - ("abc" : String).length) :=
  claimC5_theorem zeroRatios "ab" "abc" (Or.inl (by decide))

/-! ## Claim C4 -/

theorem goodChar_spec {c : Char} (h : goodChar c = true) :
    pyLowerChar c = c ∧ nfkdChar c = [c] ∧ c ≠ '-' ∧ isPySpace c = false := by
  simp only [goodChar, Bool.and_eq_true, beq_iff_eq, bne_iff_ne, ne_eq,
    Bool.not_eq_true'] at h
  exact ⟨h.1.1.1, h.1.1.2, h.1.2, h.2⟩

/-- Lower-casing an ASCII character and NFKD-decomposing the result only
produces characters that lower-casing and NFKD leave alone (checked over all
128 code points). -/
theorem stable_ascii :
    ∀ n, n < 128 → ∀ d ∈ nfkdChar (pyLowerChar (Char.ofNat n)),
      pyLowerChar d = d ∧ nfkdChar d = [d] := by
  decide

/-- Every character produced by the lower-case/NFKD preprocessing of an
ASCII list is stable under lower-casing and NFKD. -/
theorem stable_of_mem_prep {l : List Char} (h : ∀ c ∈ l, c.toNat < 128) :
    ∀ d ∈ (l.map pyLowerChar).flatMap nfkdChar,
      pyLowerChar d = d ∧ nfkdChar d = [d] := by
  intro d hd
  rw [List.mem_flatMap] at hd
  obtain ⟨a, ha, hda⟩ := hd
  rw [List.mem_map] at ha
  obtain ⟨c, hc, rfl⟩ := ha
  have hfact := stable_ascii c.toNat (h c hc) d
  rw [Char.ofNat_toNat] at hfact
  exact hfact hda

/-- Characters emitted by the delimiter pass are underscores or non-delimiter
input characters. -/
theorem subDelimsAux_chars {l : List Char} :
    ∀ b, ∀ d ∈ subDelimsAux b l,
      (d = '_' ∨ d ∈ l) ∧ d ≠ '-' ∧ isPySpace d = false := by
  induction l with
  | nil => intro b d hd; simp [subDelimsAux] at hd
  | cons c rest ih =>
    intro b d hd
    simp only [subDelimsAux] at hd
    split at hd
    · rcases List.mem_cons.mp hd with rfl | hd'
      · exact ⟨Or.inl rfl, by decide, by decide⟩
      · obtain ⟨hm, h2⟩ := ih false d hd'
        exact ⟨hm.imp_right (List.mem_cons_of_mem c), h2⟩
    · rename_i h1
      split at hd
      · rename_i h2
        split at hd
        · obtain ⟨hm, h3⟩ := ih true d hd
          exact ⟨hm.imp_right (List.mem_cons_of_mem c), h3⟩
        · rcases List.mem_cons.mp hd with rfl | hd'
          · exact ⟨Or.inl rfl, by decide, by decide⟩
          · obtain ⟨hm, h3⟩ := ih true d hd'
            exact ⟨hm.imp_right (List.mem_cons_of_mem c), h3⟩
      · rename_i h2
        rcases List.mem_cons.mp hd with rfl | hd'
        · refine ⟨Or.inr (List.mem_cons_self _ _), fun hdd => h1 (Or.inl hdd), ?_⟩
          simpa using h2
        · obtain ⟨hm, h3⟩ := ih false d hd'
          exact ⟨hm.imp_right (List.mem_cons_of_mem c), h3⟩

/-- The underscore collapse only keeps input characters. -/
theorem mem_collapseU {l : List Char} : ∀ d ∈ collapseU l, d ∈ l := by
  induction l with
  | nil => intro d hd; simp [collapseU] at hd
  | cons a tail ih =>
    cases tail with
    | nil => intro d hd; exact hd
    | cons b rest =>
      intro d hd
      simp only [collapseU] at hd
      split at hd
      · exact List.mem_cons_of_mem a (ih d hd)
      · rcases List.mem_cons.mp hd with rfl | hd'
        · exact List.mem_cons_self _ _
        · exact List.mem_cons_of_mem a (ih d hd')

/-- The collapse pass preserves the head character. -/
theorem head?_collapseU (x : Char) (xs : List Char) :
    (collapseU (x :: xs)).head? = some x := by
  induction xs generalizing x with
  | nil => rfl
  | cons b rest ih =>
    simp only [collapseU]
    split
    · rename_i hab
      rw [ih b, hab.1, hab.2]
    · rfl

/-- After the collapse pass, no two adjacent underscores remain. -/
theorem chain'_collapseU (l : List Char) : (collapseU l).Chain' NotDoubleU := by
  induction l with
  | nil => simp [collapseU]
  | cons a tail ih =>
    cases tail with
    | nil => simp [collapseU]
    | cons b rest =>
      simp only [collapseU]
      split
      · exact ih
      · rename_i hab
        rw [List.chain'_cons']
        refine ⟨?_, ih⟩
        intro y hy
        rw [head?_collapseU b rest] at hy
        cases hy
        exact hab

/-- Stripping keeps only input characters. -/
theorem mem_stripU {X : List Char} {d : Char} (hd : d ∈ stripU X) : d ∈ X := by
  unfold stripU at hd
  have hpre := List.rdropWhile_prefix (fun x => decide (x = '_'))
    (X.dropWhile fun x => decide (x = '_'))
  exact (List.dropWhile_suffix _).subset (hpre.subset hd)

/-- Stripping preserves the no-adjacent-underscores property. -/
theorem chain'_stripU {X : List Char} (h : X.Chain' NotDoubleU) :
    (stripU X).Chain' NotDoubleU := by
  have hpre := List.rdropWhile_prefix (fun x => decide (x = '_'))
    (X.dropWhile fun x => decide (x = '_'))
  exact List.Chain'.prefix (h.suffix (List.dropWhile_suffix _)) hpre

/-- The head of a stripped list is never an underscore. -/
theorem stripU_head? {X : List Char} {c : Char}
    (h : (stripU X).head? = some c) : c ≠ '_' := by
  unfold stripU at h
  have hne : List.rdropWhile (fun x => decide (x = '_'))
      (X.dropWhile fun x => decide (x = '_')) ≠ [] :=
    fun h0 => by rw [h0] at h; cases h
  obtain ⟨t, ht⟩ := List.rdropWhile_prefix (fun x => decide (x = '_'))
    (X.dropWhile fun x => decide (x = '_'))
  have h2 : (X.dropWhile fun x => decide (x = '_')).head? = some c := by
    rw [← ht, List.head?_append_of_ne_nil _ hne]
    exact h
  have h3 := List.head?_dropWhile_not (fun x => decide (x = '_')) X
  rw [h2] at h3
  simpa using h3

/-- The last character of a stripped list is never an underscore. -/
theorem stripU_getLast? {X : List Char} {c : Char}
    (h : (stripU X).getLast? = some c) : c ≠ '_' := by
  unfold stripU List.rdropWhile at h
  rw [List.getLast?_reverse] at h
  have h3 := List.head?_dropWhile_not (fun x => decide (x = '_'))
    (X.dropWhile fun x => decide (x = '_')).reverse
  rw [h] at h3
  simpa using h3

/-- `map` leaves a list of lower-case-stable characters unchanged. -/
theorem map_pyLower_eq_self {l : List Char} (h : ∀ c ∈ l, pyLowerChar c = c) :
    l.map pyLowerChar = l :=
  (List.map_congr_left (fun a ha => (h a ha).trans rfl) :
    l.map pyLowerChar = l.map id).trans (List.map_id l)

/-- `flatMap` leaves a list of NFKD-stable characters unchanged. -/
theorem flatMap_nfkd_eq_self {l : List Char} (h : ∀ c ∈ l, nfkdChar c = [c]) :
    l.flatMap nfkdChar = l := by
  induction l with
  | nil => rfl
  | cons c rest ih =>
    rw [List.flatMap_cons, h c (List.mem_cons_self _ _),
      ih fun x hx => h x (List.mem_cons_of_mem _ hx)]
    rfl

/-- The delimiter pass leaves a delimiter-free list unchanged. -/
theorem subDelimsAux_eq_self {l : List Char}
    (h : ∀ c ∈ l, c ≠ '-' ∧ isPySpace c = false) :
    ∀ b, subDelimsAux b l = l := by
  induction l with
  | nil => intro b; rfl
  | cons c rest ih =>
    intro b
    obtain ⟨hc1, hc2⟩ := h c (List.mem_cons_self _ _)
    have hrest : ∀ x ∈ rest, x ≠ '-' ∧ isPySpace x = false :=
      fun x hx => h x (List.mem_cons_of_mem _ hx)
    simp only [subDelimsAux]
    by_cases hcu : c = '_'
    · rw [if_pos (Or.inr hcu), ih hrest false, hcu]
    · rw [if_neg (by simp [hc1, hcu]), if_neg (by simp [hc2]), ih hrest false]

/-- The collapse pass leaves a list without adjacent underscores unchanged. -/
theorem collapseU_eq_self {l : List Char} (h : l.Chain' NotDoubleU) :
    collapseU l = l := by
  induction l with
  | nil => rfl
  | cons a tail ih =>
    cases tail with
    | nil => rfl
    | cons b rest =>
      simp only [collapseU]
      rw [if_neg (List.chain'_cons.mp h).1, ih h.tail]

/-- Leading drop of underscores is the identity when the head is not one. -/
theorem dropWhile_underscore_eq_self {x : List Char}
    (h : ∀ c, x.head? = some c → c ≠ '_') : (x.dropWhile fun c => decide (c = '_')) = x := by
  cases x with
  | nil => rfl
  | cons a tl =>
    have := h a rfl
    simp [List.dropWhile_cons, this]

/-- Stripping is the identity when neither end is an underscore. -/
theorem stripU_eq_self {x : List Char}
    (hh : ∀ c, x.head? = some c → c ≠ '_')
    (hg : ∀ c, x.getLast? = some c → c ≠ '_') : stripU x = x := by
  unfold stripU
  rw [dropWhile_underscore_eq_self hh]
  unfold List.rdropWhile
  rw [show x.reverse.dropWhile (fun c => decide (c = '_')) = x.reverse from
    dropWhile_underscore_eq_self (fun c hc => hg c (by rwa [List.head?_reverse] at hc))]
  exact List.reverse_reverse x

/-- Idempotence of `normalize` on ASCII character lists. -/
theorem normalizeL_idem {l : List Char} (h : ∀ c ∈ l, c.toNat < 128) :
    normalizeL (normalizeL l) = normalizeL l := by
  have hpipe : ∀ x : List Char, x ≠ [] →
      normalizeL x =
        stripU (collapseU (subDelims ((x.map pyLowerChar).flatMap nfkdChar))) := by
    intro x hx
    unfold normalizeL
    rw [if_neg hx]
  by_cases hl : l = []
  · subst hl; rfl
  · have hn := hpipe l hl
    have hgood : ∀ d ∈ normalizeL l, goodChar d = true := by
      intro d hd
      rw [hn] at hd
      have hd2 := mem_collapseU d (mem_stripU hd)
      obtain ⟨hm, hdash, hspace⟩ := subDelimsAux_chars false d hd2
      rcases hm with rfl | hm'
      · decide
      · obtain ⟨hs1, hs2⟩ := stable_of_mem_prep h d hm'
        simp [goodChar, hs1, hs2, hdash, hspace]
    have hchain : (normalizeL l).Chain' NotDoubleU := by
      rw [hn]
      exact chain'_stripU (chain'_collapseU _)
    by_cases hnil : normalizeL l = []
    · rw [hnil]
      rfl
    · rw [hpipe _ hnil,
        map_pyLower_eq_self fun c hc => (goodChar_spec (hgood c hc)).1,
        flatMap_nfkd_eq_self fun c hc => (goodChar_spec (hgood c hc)).2.1,
        show subDelims (normalizeL l) = normalizeL l from
          subDelimsAux_eq_self (fun c hc => (goodChar_spec (hgood c hc)).2.2) false,
        collapseU_eq_self hchain]
      exact stripU_eq_self
        (fun c hc => stripU_head? (by rwa [hn] at hc))
        (fun c hc => stripU_getLast? (by rwa [hn] at hc))

/-- C4 as stated is false: `normalize` is not idempotent on every string.
The trade-mark sign has no lowercase mapping, and its NFKD decomposition —
applied after lower-casing — is the uppercase pair `TM`, so
`normalize("™") = "TM"` while `normalize(normalize("™")) = "tm"`. -/
theorem claimC4_counterexample :
    normalizeS (normalizeS "™") ≠ normalizeS "™" := by
  decide

/-- C4 (amended): `normalize` is idempotent on every ASCII string; the
original claim over all strings fails exactly on characters whose
compatibility decomposition reintroduces letters that lower-casing no longer
sees (e.g. `"™"`). -/
theorem claimC4_theorem (s : String) (h : ∀ c ∈ s.data, c.toNat < 128) :
    normalizeS (normalizeS s) = normalizeS s := by
  unfold normalizeS
  exact congrArg String.mk (normalizeL_idem h)

/-- Witness for C4 (amended) on a concrete ASCII string. -/
theorem claimC4_witness :
    normalizeS (normalizeS "START--  Date") = normalizeS "START--  Date" :=
  claimC4_theorem "START--  Date" (by decide)

end WordColumnMapper
